import Mathlib

/-!
# Verification of the `deferred` stepwise-execution library

Shallow embedding of the crate rooted at `src/`:

* `src/context.rs`   — `Context<S>`: tagged union of a ready state and a nested execution;
* `src/deferred.rs`  — `Deferred<S>`: FIFO queue of step functions plus a current context;
* `src/deferred_manager.rs` — `DeferredManager<S>`: identifier-keyed registry of executions;
* `src/value.rs`     — `Value`: type-erased single-payload container.

Modelling conventions:

* A step (`Part<S> = fn(Context<S>) -> Context<S>`) is embedded as a function
  `S → Context S`.  The only application site in the source is
  `part(Context::State(state))` in `Deferred::resume`, so a step's behaviour is
  fully determined by its action on plain states; embedding the full
  `Context → Context` domain would be a non-positive occurrence in the
  inductive type and the restriction loses no reachable behaviour.
* The `VecDeque` of parts is embedded as the front-biased list `Parts S`
  (`pop_front` = head, `extend` of a `Vec` = conversion from `List`).
* Panics are embedded as `none`: `Option::unwrap` on `None` inside
  `Deferred::consume`, the type-mismatch panics of `Value`, and the panic of
  `Context::deferred` all surface as `Option` results in the model.
* `HashMap<Id, Deferred<S>>` is embedded as an association list with
  `insert` = cons, `remove` = erase-first; `Id = usize` is embedded as `Nat`.
-/

set_option autoImplicit false

open NaturalOps

mutual

/-- `Context<S>` from src/context.rs: holds a single state or a deferred subroutine. -/
inductive Context (S : Type) : Type where
  | State : S → Context S
  | Deferred : Deferred S → Context S

/-- `Deferred<S>` from src/deferred.rs: a queue of parts and a current context. -/
inductive Deferred (S : Type) : Type where
  | mk : Parts S → Context S → Deferred S

/-- The `VecDeque<Part<S>>` of pending steps, as a front-biased list. -/
inductive Parts (S : Type) : Type where
  | nil : Parts S
  | cons : (S → Context S) → Parts S → Parts S

end

variable {S : Type}

/-- Alias for the execution type, needed inside the `Context` namespace where the
bare name `Deferred` resolves to the constructor `Context.Deferred`. -/
abbrev DeferredExec (S : Type) : Type := Deferred S

/-- The `parts` field of `Deferred<S>`. -/
def Deferred.parts : Deferred S → Parts S
  | .mk ps _ => ps

/-- The `context` field of `Deferred<S>`. -/
def Deferred.context : Deferred S → Context S
  | .mk _ c => c

/-- `VecDeque::is_empty`. -/
def Parts.isEmpty : Parts S → Bool
  | .nil => true
  | .cons _ _ => false

@[simp]
theorem Parts.isEmpty_nil : (Parts.nil : Parts S).isEmpty = true := rfl

@[simp]
theorem Parts.isEmpty_cons (p : S → Context S) (ps : Parts S) :
    (Parts.cons p ps).isEmpty = false := rfl

/-- Conversion from a `Vec` of parts (a `List`), mirroring `VecDeque::extend`. -/
def Parts.ofList : List (S → Context S) → Parts S
  | [] => .nil
  | p :: ps => .cons p (Parts.ofList ps)

/-- `VecDeque` concatenation, used only to state properties about queues. -/
def Parts.append : Parts S → Parts S → Parts S
  | .nil, qs => qs
  | .cons p ps, qs => .cons p (Parts.append ps qs)

instance : Append (Parts S) := ⟨Parts.append⟩

/-- `Deferred::new(state, parts)`: context initialised to `Context::State(state)`. -/
def Deferred.new (state : S) (parts : List (S → Context S)) : Deferred S :=
  .mk (Parts.ofList parts) (.State state)

/-- `Deferred::can_resume` from src/deferred.rs lines 71-76. -/
def Deferred.can_resume : Deferred S → Bool
  | .mk ps (.State _) => !ps.isEmpty
  | .mk ps (.Deferred d) => d.can_resume || !ps.isEmpty

mutual

/-- `Deferred::state` (src/deferred.rs line 100): read-only view of the current state. -/
def Deferred.state : Deferred S → Option S
  | .mk _ c => Context.get_state c

/-- `Context::get_state` from src/context.rs lines 32-37. -/
def Context.get_state : Context S → Option S
  | .State s => some s
  | .Deferred d => Deferred.state d

end

/-- `Context::is_state` from src/context.rs. -/
def Context.is_state : Context S → Bool
  | .State _ => true
  | .Deferred _ => false

/-- `Context::is_deferred` from src/context.rs. -/
def Context.is_deferred : Context S → Bool
  | .State _ => false
  | .Deferred _ => true

/-- `Context::get_deferred` from src/context.rs. -/
def Context.get_deferred : Context S → Option (DeferredExec S)
  | .State _ => none
  | .Deferred d => some d

/-- `Context::deferred` from src/context.rs lines 61-67: consumes the context and
returns its deferred subroutine; the panic on a `State` context is embedded as `none`. -/
def Context.deferred : Context S → Option (DeferredExec S)
  | .State _ => none
  | .Deferred d => some d

/-- Extraction of the grounded state of an execution, descending through nested
contexts.  This is exactly what `Deferred::consume` followed by `Context::state`
computes on an execution with `can_resume() == false` (the `while` loop runs zero
times and `Context::state` recurses through `Deferred::consume` of nested
executions that are themselves non-resumable); the bridge lemma
`Deferred.consume_of_not_can_resume` below ties it to the full `consume`. -/
def Deferred.ground : Deferred S → S
  | .mk _ (.State s) => s
  | .mk _ (.Deferred d) => d.ground

mutual

/-- Ordinal measure of a context, used to prove termination of `Deferred.resume`. -/
noncomputable def Context.rank : Context S → Ordinal.{0}
  | .State _ => 0
  | .Deferred d => Deferred.rank d + 1

/-- Ordinal measure of an execution. -/
noncomputable def Deferred.rank : Deferred S → Ordinal.{0}
  | .mk ps c => Parts.rank ps ♯ Context.rank c

/-- Ordinal measure of a queue of parts: every state a part may ever receive is
accounted for by a supremum over all states. -/
noncomputable def Parts.rank : Parts S → Ordinal.{0}
  | .nil => 0
  | .cons p ps => ((⨆ s, Context.rank (p s)) + 1) ♯ Parts.rank ps

end

theorem Context.rank_le_sup (p : S → Context S) (s : S) :
    Context.rank (p s) ≤ ⨆ t, Context.rank (p t) :=
  Ordinal.le_iSup (fun t => Context.rank (p t)) s

theorem Ordinal.le_self_nadd_left {a b : Ordinal.{0}} : b ≤ a ♯ b := by
  have h := Ordinal.nadd_le_nadd_right (Ordinal.zero_le a) b
  rwa [Ordinal.zero_nadd] at h

theorem Context.rank_lt_parts_rank (p : S → Context S) (ps : Parts S) (s : S) :
    Context.rank (p s) ♯ Parts.rank ps < Parts.rank (Parts.cons p ps) := by
  have h1 : Context.rank (p s) < (⨆ t, Context.rank (p t)) + 1 := by
    rw [Ordinal.add_one_eq_succ, Order.lt_succ_iff]
    exact Context.rank_le_sup p s
  calc Context.rank (p s) ♯ Parts.rank ps
      < ((⨆ t, Context.rank (p t)) + 1) ♯ Parts.rank ps :=
        Ordinal.nadd_lt_nadd_right h1 (Parts.rank ps)
    _ = Parts.rank (Parts.cons p ps) := by rw [Parts.rank]

theorem Deferred.rank_step_lt (p : S → Context S) (ps : Parts S) (s : S) (c : Context S)
    (h : p s = c) :
    Deferred.rank (Deferred.mk ps c) < Deferred.rank (Deferred.mk (Parts.cons p ps) (.State s)) := by
  rw [Deferred.rank, Deferred.rank, Context.rank, Ordinal.nadd_zero, Ordinal.nadd_comm, ← h]
  exact Context.rank_lt_parts_rank p ps s

theorem Deferred.rank_nested_lt (ps : Parts S) (d : Deferred S) :
    Deferred.rank d < Deferred.rank (Deferred.mk ps (.Deferred d)) := by
  rw [Deferred.rank, Context.rank]
  calc Deferred.rank d < Deferred.rank d + 1 := by
        rw [Ordinal.add_one_eq_succ]; exact Order.lt_succ _
    _ ≤ Parts.rank ps ♯ (Deferred.rank d + 1) := Ordinal.le_self_nadd_left

theorem Deferred.rank_collapse_lt (ps : Parts S) (d : Deferred S) (s : S) :
    Deferred.rank (Deferred.mk ps (.State s)) < Deferred.rank (Deferred.mk ps (.Deferred d)) := by
  rw [Deferred.rank, Deferred.rank, Context.rank, Context.rank, Ordinal.nadd_zero]
  calc Parts.rank ps = Parts.rank ps ♯ 0 := by rw [Ordinal.nadd_zero]
    _ < Parts.rank ps ♯ (Deferred.rank d + 1) := by
        apply Ordinal.nadd_lt_nadd_left
        rw [Ordinal.add_one_eq_succ]
        exact Order.bot_lt_succ _

/-- `Deferred::resume` from src/deferred.rs lines 151-181, the central algorithm.
On a `State` context it pops the front part and applies it; a resulting nested
execution triggers an immediate recursive self-resume.  On a `Deferred` context
it delegates one tick to the nested execution if that can still resume, and
otherwise collapses it to its final value (the source calls `deferred.consume()`,
which on a non-resumable execution is exactly `Deferred.ground`; see
`Deferred.consume_of_not_can_resume`) and retries. -/
def Deferred.resume : Deferred S → Option (Deferred S)
  | .mk .nil (.State _) => none
  | .mk (.cons p rest) (.State s) =>
    match h : p s with
    | .State t => some (.mk rest (.State t))
    | .Deferred d => Deferred.resume (.mk rest (.Deferred d))
  | .mk ps (.Deferred d) =>
    if d.can_resume then
      (Deferred.resume d).map (fun d2 => .mk ps (.Deferred d2))
    else
      Deferred.resume (.mk ps (.State d.ground))
termination_by d => Deferred.rank d
decreasing_by
  · exact Deferred.rank_step_lt p rest s _ h
  · exact Deferred.rank_nested_lt ps d
  · exact Deferred.rank_collapse_lt ps d _

@[simp]
theorem Deferred.resume_nil_state (s : S) :
    (Deferred.mk .nil (.State s)).resume = none := by
  rw [Deferred.resume]

theorem Deferred.resume_cons_state_state {p : S → Context S} {s t : S} (ps : Parts S)
    (h : p s = .State t) :
    (Deferred.mk (.cons p ps) (.State s)).resume = some (.mk ps (.State t)) := by
  rw [Deferred.resume]
  split <;> simp_all

theorem Deferred.resume_cons_state_deferred {p : S → Context S} {s : S} {d : Deferred S}
    (ps : Parts S) (h : p s = .Deferred d) :
    (Deferred.mk (.cons p ps) (.State s)).resume = (Deferred.mk ps (.Deferred d)).resume := by
  rw [Deferred.resume]
  split <;> simp_all

theorem Deferred.resume_deferred (ps : Parts S) (d : Deferred S) :
    (Deferred.mk ps (.Deferred d)).resume =
      (if d.can_resume then
        (Deferred.resume d).map (fun d2 => .mk ps (.Deferred d2))
      else
        (Deferred.mk ps (.State d.ground)).resume) := by
  rw [Deferred.resume]

theorem Deferred.resume_rank_lt {d d2 : Deferred S} (h : d.resume = some d2) :
    d2.rank < d.rank := by
  induction d using Deferred.resume.induct generalizing d2 with
  | case1 s => simp at h
  | case2 p rest s t hps =>
    rw [Deferred.resume_cons_state_state rest hps] at h
    cases h
    exact Deferred.rank_step_lt p rest s _ hps
  | case3 p rest s dd hps ih =>
    rw [Deferred.resume_cons_state_deferred rest hps] at h
    exact (ih h).trans (Deferred.rank_step_lt p rest s _ hps)
  | case4 ps dd hcr ih =>
    rw [Deferred.resume_deferred, if_pos hcr] at h
    cases hr : dd.resume with
    | none => rw [hr] at h; simp at h
    | some dd2 =>
      rw [hr] at h
      cases h
      have h1 := ih hr
      rw [Deferred.rank, Deferred.rank, Context.rank, Context.rank]
      apply Ordinal.nadd_lt_nadd_left
      rw [Ordinal.add_one_eq_succ, Ordinal.add_one_eq_succ]
      exact Order.succ_lt_succ h1
  | case5 ps dd hcr ih =>
    rw [Deferred.resume_deferred, if_neg hcr] at h
    exact (ih h).trans (Deferred.rank_collapse_lt ps dd _)

/-- `Deferred::consume` from src/deferred.rs lines 201-206: `while can_resume { self =
resume().unwrap() }; self.context.state()`.  The `unwrap` of a `None` resume result is a
panic, embedded as `none`.  When the loop exits, `can_resume` is false and
`self.context.state()` extracts the grounded state (`Deferred.ground`); the lemma
`Deferred.consume_context_state` below re-checks this against `Context.state`. -/
def Deferred.consume (d : Deferred S) : Option S :=
  if d.can_resume then
    match h : d.resume with
    | some d2 => Deferred.consume d2
    | none => none
  else
    some d.ground
termination_by Deferred.rank d
decreasing_by exact Deferred.resume_rank_lt h

theorem Deferred.consume_of_not_can_resume {d : Deferred S} (h : d.can_resume = false) :
    d.consume = some d.ground := by
  rw [Deferred.consume, h]
  simp

theorem Deferred.consume_of_resume_some {d d2 : Deferred S} (hcr : d.can_resume = true)
    (h : d.resume = some d2) : d.consume = d2.consume := by
  rw [Deferred.consume, hcr]
  simp only [if_true]
  split <;> simp_all

theorem Deferred.consume_of_resume_none {d : Deferred S} (hcr : d.can_resume = true)
    (h : d.resume = none) : d.consume = none := by
  rw [Deferred.consume, hcr]
  simp only [if_true]
  split <;> simp_all

/-- `Context::state` from src/context.rs lines 49-54: consumes the context; a
`Deferred` arm forces the nested execution to run to completion via `consume`. -/
def Context.state : Context S → Option S
  | .State s => some s
  | .Deferred d => d.consume

/-- `Context::unwrap`, alias for `Context::state`. -/
def Context.unwrap : Context S → Option S := Context.state

/-- `Deferred::unwrap`, alias for `Deferred::consume`. -/
def Deferred.unwrap : Deferred S → Option S := Deferred.consume

/-- Faithfulness of the `ground`-based tail of the model `consume`: on a
non-resumable execution the source expression `self.context.state()` computes
exactly `some d.ground`. -/
theorem Deferred.consume_context_state {d : Deferred S} (h : d.can_resume = false) :
    d.context.state = some d.ground := by
  obtain ⟨ps, c⟩ := d
  cases c with
  | State s => rfl
  | Deferred d2 =>
    rw [Deferred.can_resume] at h
    simp only [Bool.or_eq_false_iff] at h
    rw [Deferred.context, Context.state, Deferred.consume_of_not_can_resume h.1,
      Deferred.ground]

@[simp]
theorem Deferred.can_resume_mk_state (ps : Parts S) (s : S) :
    (Deferred.mk ps (.State s)).can_resume = !ps.isEmpty := by
  rw [Deferred.can_resume]

@[simp]
theorem Deferred.can_resume_mk_deferred (ps : Parts S) (d : Deferred S) :
    (Deferred.mk ps (.Deferred d)).can_resume = (d.can_resume || !ps.isEmpty) := by
  rw [Deferred.can_resume]

@[simp]
theorem Deferred.ground_mk_state (ps : Parts S) (s : S) :
    (Deferred.mk ps (.State s)).ground = s := by
  rw [Deferred.ground]

@[simp]
theorem Deferred.ground_mk_deferred (ps : Parts S) (d : Deferred S) :
    (Deferred.mk ps (.Deferred d)).ground = d.ground := by
  rw [Deferred.ground]

/-- Well-founded induction along the ordinal measure of executions. -/
theorem Deferred.rank_induction {motive : Deferred S → Prop} (d : Deferred S)
    (ih : ∀ d, (∀ d2, Deferred.rank d2 < Deferred.rank d → motive d2) → motive d) :
    motive d :=
  (InvImage.wf Deferred.rank Ordinal.lt_wf).induction d ih

/-- Consuming an execution whose context is a nested execution first consumes the
nested execution and continues from its final value (propagating a panic). -/
theorem Deferred.consume_deferred_eq (d : Deferred S) : ∀ (ps : Parts S),
    (Deferred.mk ps (.Deferred d)).consume
      = (d.consume).bind (fun v => (Deferred.mk ps (.State v)).consume) := by
  induction d using Deferred.rank_induction with
  | ih d IH =>
    intro ps
    by_cases hcr : d.can_resume
    · cases hr : d.resume with
      | none =>
        rw [Deferred.consume_of_resume_none hcr hr,
          Deferred.consume_of_resume_none (d := Deferred.mk ps (.Deferred d))
            (by simp [hcr]) (by rw [Deferred.resume_deferred, if_pos hcr, hr]; rfl)]
        rfl
      | some dd =>
        rw [Deferred.consume_of_resume_some hcr hr,
          Deferred.consume_of_resume_some (d := Deferred.mk ps (.Deferred d))
            (by simp [hcr]) (by rw [Deferred.resume_deferred, if_pos hcr, hr]; rfl)]
        exact IH dd (Deferred.resume_rank_lt hr) ps
    · have hcf : d.can_resume = false := eq_false_of_ne_true hcr
      have hg := Deferred.consume_of_not_can_resume (d := d) hcf
      rw [hg]
      cases ps with
      | nil =>
        rw [Deferred.consume_of_not_can_resume (by simp [hcf, Parts.isEmpty])]
        simp only [Option.some_bind]
        rw [Deferred.consume_of_not_can_resume (by simp [Parts.isEmpty])]
        simp
      | cons p ps2 =>
        have h1 : (Deferred.mk (Parts.cons p ps2) (.Deferred d)).resume
            = (Deferred.mk (Parts.cons p ps2) (.State d.ground)).resume := by
          rw [Deferred.resume_deferred, if_neg (by simp [hcf])]
        simp only [Option.some_bind]
        cases hr2 : (Deferred.mk (Parts.cons p ps2) (.State d.ground)).resume with
        | none =>
          rw [Deferred.consume_of_resume_none (by simp [hcf, Parts.isEmpty])
              (h1.trans hr2),
            Deferred.consume_of_resume_none (by simp [Parts.isEmpty]) hr2]
        | some x =>
          rw [Deferred.consume_of_resume_some (by simp [hcf, Parts.isEmpty])
              (h1.trans hr2),
            Deferred.consume_of_resume_some (by simp [Parts.isEmpty]) hr2]

@[simp]
theorem Deferred.consume_nil_state (s : S) :
    (Deferred.mk .nil (.State s)).consume = some s := by
  rw [Deferred.consume_of_not_can_resume (by simp [Parts.isEmpty])]
  simp

theorem Deferred.consume_eq_of_resume_eq {a b : Deferred S} (ha : a.can_resume = true)
    (hb : b.can_resume = true) (h : a.resume = b.resume) : a.consume = b.consume := by
  cases hr : b.resume with
  | none =>
    rw [Deferred.consume_of_resume_none ha (h.trans hr), Deferred.consume_of_resume_none hb hr]
  | some x =>
    rw [Deferred.consume_of_resume_some ha (h.trans hr), Deferred.consume_of_resume_some hb hr]

/-- Running an execution one part at a time: applying the front part to the state
and continuing, provided the resulting context is a plain state. -/
theorem Deferred.consume_cons_state {p : S → Context S} {s t : S} (ps : Parts S)
    (h : p s = .State t) :
    (Deferred.mk (.cons p ps) (.State s)).consume = (Deferred.mk ps (.State t)).consume := by
  rw [Deferred.consume_of_resume_some (by simp [Parts.isEmpty])
    (Deferred.resume_cons_state_state ps h)]

/-- Running an execution one part at a time when the front part yields a nested
execution: the nested execution is consumed first, provided it can still resume
or further parts remain in the outer queue. -/
theorem Deferred.consume_cons_deferred {p : S → Context S} {s : S} {dx : Deferred S}
    (ps : Parts S) (h : p s = .Deferred dx)
    (hside : dx.can_resume = true ∨ ps.isEmpty = false) :
    (Deferred.mk (.cons p ps) (.State s)).consume
      = (dx.consume).bind (fun v => (Deferred.mk ps (.State v)).consume) := by
  have hcr : (Deferred.mk ps (.Deferred dx)).can_resume = true := by
    rcases hside with h1 | h1 <;> simp [h1]
  rw [← Deferred.consume_deferred_eq]
  exact Deferred.consume_eq_of_resume_eq (by simp [Parts.isEmpty]) hcr
    (Deferred.resume_cons_state_deferred ps h)

@[simp]
theorem Parts.isEmpty_ofList (l : List (S → Context S)) :
    (Parts.ofList l).isEmpty = l.isEmpty := by
  cases l <;> rfl

/-- A step is tame when any nested execution it returns can still resume
(equivalently, it never returns an already-exhausted subroutine). -/
def StepTame (g : S → Context S) : Prop :=
  ∀ s (d : Deferred S), g s = .Deferred d → d.can_resume = true

/-- Sequential composition of consumption along a concatenation of queues, for a
prefix whose parts are all tame. -/
theorem Deferred.consume_append (gs : List (S → Context S))
    (hg : ∀ g ∈ gs, StepTame g) (t : S) (ys : List (S → Context S)) :
    (Deferred.mk (Parts.ofList (gs ++ ys)) (.State t)).consume
      = ((Deferred.mk (Parts.ofList gs) (.State t)).consume).bind
          (fun v => (Deferred.mk (Parts.ofList ys) (.State v)).consume) := by
  induction gs generalizing t with
  | nil => simp [Parts.ofList]
  | cons g gs2 ih =>
    have hgs2 : ∀ g ∈ gs2, StepTame g := fun g hgm => hg g (List.mem_cons_of_mem _ hgm)
    cases hgt : g t with
    | State u =>
      rw [List.cons_append, Parts.ofList, Parts.ofList,
        Deferred.consume_cons_state _ hgt, Deferred.consume_cons_state _ hgt, ih hgs2]
    | Deferred dx =>
      have hdx : dx.can_resume = true := hg g (List.mem_cons_self g gs2) t dx hgt
      rw [List.cons_append, Parts.ofList, Parts.ofList,
        Deferred.consume_cons_deferred _ hgt (Or.inl hdx),
        Deferred.consume_cons_deferred _ hgt (Or.inl hdx)]
      rw [Option.bind_assoc]
      exact congrArg _ (funext fun v => ih hgs2 v)

/-- Unconditional unfolding of `resume` on a `State` context with a queued part,
convenient for evaluating concrete executions. -/
theorem Deferred.resume_cons_state (p : S → Context S) (ps : Parts S) (s : S) :
    (Deferred.mk (.cons p ps) (.State s)).resume =
      (match p s with
        | .State t => some (Deferred.mk ps (.State t))
        | .Deferred d => (Deferred.mk ps (.Deferred d)).resume) := by
  cases hps : p s with
  | State t => rw [Deferred.resume_cons_state_state ps hps]
  | Deferred d => rw [Deferred.resume_cons_state_deferred ps hps]

/-- Unconditional unfolding of `consume`, mirroring the source loop
`while can_resume { self = resume().unwrap() }; self.context.state()`. -/
theorem Deferred.consume_unfold (d : Deferred S) :
    d.consume =
      (if d.can_resume then
        (match d.resume with
          | some d2 => d2.consume
          | none => none)
      else some d.ground) := by
  by_cases hcr : d.can_resume
  · cases hr : d.resume with
    | some d2 => rw [Deferred.consume_of_resume_some hcr hr]; simp [hcr]
    | none => rw [Deferred.consume_of_resume_none hcr hr]; simp [hcr]
  · have hcf : d.can_resume = false := eq_false_of_ne_true hcr
    rw [Deferred.consume_of_not_can_resume hcf]
    simp [hcf]

@[simp]
theorem Deferred.state_mk (ps : Parts S) (c : Context S) :
    (Deferred.mk ps c).state = c.get_state := by
  rw [Deferred.state]

@[simp]
theorem Context.get_state_state (s : S) : (Context.State s).get_state = some s := by
  rw [Context.get_state]

@[simp]
theorem Context.get_state_deferred (d : DeferredExec S) :
    (Context.Deferred d).get_state = d.state := by
  rw [Context.get_state]

/-- The general flattening law, under the side condition that the invoked
sub-chain is nonempty and each of its steps is tame: replacing a step that
invokes the sub-chain `gs` (from the incoming state) by the inlined steps `gs`
preserves the final value of a full run. -/
theorem Deferred.flattening {T : Type} (xs ys gs : List (T → Context T)) (s0 : T)
    (hne : gs ≠ []) (hg : ∀ g ∈ gs, StepTame g) :
    (Deferred.new s0 (xs ++ (fun t => Context.Deferred (Deferred.new t gs)) :: ys)).consume
      = (Deferred.new s0 (xs ++ (gs ++ ys))).consume := by
  induction xs generalizing s0 with
  | nil =>
    rw [List.nil_append, List.nil_append, Deferred.new, Deferred.new, Parts.ofList]
    have hsub : (Deferred.new s0 gs).can_resume = true := by
      cases gs with
      | nil => exact absurd rfl hne
      | cons g gs2 => rw [Deferred.new]; simp [Parts.ofList, Parts.isEmpty]
    rw [Deferred.consume_cons_deferred (Parts.ofList ys)
      (show (fun t => Context.Deferred (Deferred.new t gs)) s0
          = Context.Deferred (Deferred.new s0 gs) from rfl) (Or.inl hsub)]
    rw [Deferred.consume_append gs hg s0 ys]
    rfl
  | cons x xs2 ih =>
    rw [List.cons_append, List.cons_append, Deferred.new, Deferred.new,
      Parts.ofList, Parts.ofList]
    cases hx : x s0 with
    | State t =>
      rw [Deferred.consume_cons_state _ hx, Deferred.consume_cons_state _ hx]
      exact ih t
    | Deferred dx =>
      have hL : (Parts.ofList (xs2 ++ (fun t => Context.Deferred (Deferred.new t gs)) :: ys)).isEmpty = false := by
        rw [Parts.isEmpty_ofList]
        cases xs2 <;> simp
      have hR : (Parts.ofList (xs2 ++ (gs ++ ys))).isEmpty = false := by
        rw [Parts.isEmpty_ofList]
        cases xs2 with
        | nil =>
          cases gs with
          | nil => exact absurd rfl hne
          | cons g gs2 => simp
        | cons a b => simp
      rw [Deferred.consume_cons_deferred _ hx (Or.inr hL),
        Deferred.consume_cons_deferred _ hx (Or.inr hR)]
      exact congrArg _ (funext fun v => ih v)

/-- `pub type Id = usize` from src/deferred_manager.rs (usize embedded as `Nat`);
named `ManagerId` because `Id` is taken by the Lean core library. -/
abbrev ManagerId : Type := Nat

/-- `DeferredManager<S>` from src/deferred_manager.rs: the `HashMap<Id, Deferred<S>>`
registry is embedded as an association list (iteration order of a `HashMap` is
unspecified, and no claim below depends on the order), plus the monotonically
increasing identifier counter. -/
structure DeferredManager (S : Type) where
  registry : List (ManagerId × Deferred S)
  id_generator : ManagerId

/-- `DeferredManager::default`. -/
def DeferredManager.new (S : Type) : DeferredManager S := ⟨[], 0⟩

/-- `DeferredManager::count`. -/
def DeferredManager.count (m : DeferredManager S) : Nat := m.registry.length

/-- `HashMap::get`-style lookup used to model `registry.remove(&id)`'s returned value. -/
def DeferredManager.lookup (m : DeferredManager S) (id : ManagerId) : Option (Deferred S) :=
  (m.registry.find? (fun e => e.1 == id)).map (·.2)

/-- The registry after `registry.remove(&id)`: the entry keyed `id` is dropped. -/
def DeferredManager.erase (m : DeferredManager S) (id : ManagerId) : DeferredManager S :=
  ⟨m.registry.eraseP (fun e => e.1 == id), m.id_generator⟩

/-- `DeferredManager::run` from src/deferred_manager.rs lines 92-97: insert under a
fresh identifier and bump the counter; returns the identifier and the new manager. -/
def DeferredManager.run (m : DeferredManager S) (deferred : Deferred S) :
    ManagerId × DeferredManager S :=
  (m.id_generator, ⟨(m.id_generator, deferred) :: m.registry, m.id_generator + 1⟩)

/-- `DeferredManager::has` from src/deferred_manager.rs lines 267-270. -/
def DeferredManager.has (m : DeferredManager S) (id : ManagerId) : Bool :=
  (m.lookup id).isSome

/-- `DeferredManager::cancel` from src/deferred_manager.rs lines 134-137:
`registry.remove(&id).is_some()`. -/
def DeferredManager.cancel (m : DeferredManager S) (id : ManagerId) :
    Bool × DeferredManager S :=
  ((m.lookup id).isSome, m.erase id)

/-- `DeferredManager::resume` from src/deferred_manager.rs lines 175-188: remove the
entry; advance it one tick; reinsert under the same identifier when it can still
resume; report `false` when absent or when `Deferred::resume` reports no progress. -/
def DeferredManager.resume (m : DeferredManager S) (id : ManagerId) :
    Bool × DeferredManager S :=
  match m.lookup id with
  | none => (false, m)
  | some deferred =>
    match deferred.resume with
    | none => (false, m.erase id)
    | some d2 =>
      if d2.can_resume then
        (true, ⟨(id, d2) :: (m.erase id).registry, m.id_generator⟩)
      else
        (true, m.erase id)

/-- `DeferredManager::consume` from src/deferred_manager.rs lines 226-232: remove and
run to completion.  The outer `Option` distinguishes a missing identifier; the inner
`Option` propagates a panic of `Deferred::consume`. -/
def DeferredManager.consume (m : DeferredManager S) (id : ManagerId) :
    Option (Option S) × DeferredManager S :=
  match m.lookup id with
  | none => (none, m)
  | some deferred => (some deferred.consume, m.erase id)

/-- `DeferredManager::resume_all` from src/deferred_manager.rs lines 304-321: drain
the registry, advance each entry one tick, and keep exactly the entries whose
advance succeeded and which can still resume. -/
def DeferredManager.resume_all (m : DeferredManager S) : DeferredManager S :=
  ⟨m.registry.filterMap (fun e =>
      (e.2.resume).bind (fun d2 => if d2.can_resume then some (e.1, d2) else none)),
    m.id_generator⟩

/-- The drain-and-complete fold of `DeferredManager::consume_all`: entries whose
`can_resume` is false are skipped (the source `filter_map` returns `None` for
them); a panic inside `Deferred::consume` aborts the whole call (`none`). -/
def DeferredManager.consumeEntries : List (ManagerId × Deferred S) → Option (List (ManagerId × S))
  | [] => some []
  | e :: rest =>
    if e.2.can_resume then
      match e.2.consume with
      | none => none
      | some v => (DeferredManager.consumeEntries rest).map (fun l => (e.1, v) :: l)
    else DeferredManager.consumeEntries rest

/-- `DeferredManager::consume_all` from src/deferred_manager.rs lines 355-366. -/
def DeferredManager.consume_all (m : DeferredManager S) :
    Option (List (ManagerId × S)) × DeferredManager S :=
  (DeferredManager.consumeEntries m.registry, ⟨[], m.id_generator⟩)

/-- Well-formedness of a manager, maintained by every operation and needed for the
association list to be a faithful model of the `HashMap`: keys are below the
counter (so the next generated identifier is fresh) and pairwise distinct. -/
def DeferredManager.Wf (m : DeferredManager S) : Prop :=
  (∀ e ∈ m.registry, e.1 < m.id_generator) ∧
    m.registry.Pairwise (fun a b => a.1 ≠ b.1)

/-- `Value` from src/value.rs: a `Box<Any>` pairing a runtime type identifier with a
payload of the identified type.  `Any`'s `TypeId` machinery is embedded by a type
`Tag` of type codes with decidable equality and an interpretation `interp` of codes
as payload types. -/
structure Value (Tag : Type) (interp : Tag → Type) where
  ty : Tag
  payload : interp ty

/-- `Value::new(Box::new(payload))`: the box records the payload's concrete type. -/
def Value.new {Tag : Type} {interp : Tag → Type} (t : Tag) (payload : interp t) :
    Value Tag interp :=
  ⟨t, payload⟩

/-- `Value::is::<T>()`: the runtime type test. -/
def Value.is {Tag : Type} {interp : Tag → Type} [DecidableEq Tag]
    (v : Value Tag interp) (t : Tag) : Bool :=
  decide (v.ty = t)

/-- `Value::get::<T>()` (`downcast_ref`): checked borrow, `none` on type mismatch. -/
def Value.get {Tag : Type} {interp : Tag → Type} [DecidableEq Tag]
    (v : Value Tag interp) (t : Tag) : Option (interp t) :=
  if h : v.ty = t then some (h ▸ v.payload) else none

/-- `Value::get_mut::<T>()` (`downcast_mut`): in the pure model a mutable borrow
reads the same payload as `get`. -/
def Value.get_mut {Tag : Type} {interp : Tag → Type} [DecidableEq Tag]
    (v : Value Tag interp) (t : Tag) : Option (interp t) :=
  v.get t

/-- `Value::into_cloned::<T>()`: `self.get::<T>().cloned()`; cloning is the
identity in the pure model. -/
def Value.into_cloned {Tag : Type} {interp : Tag → Type} [DecidableEq Tag]
    (v : Value Tag interp) (t : Tag) : Option (interp t) :=
  v.get t

/-- `Value::unwrap::<T>()` from src/value.rs lines 66-68: `get::<T>().unwrap()`;
the panic on a type mismatch is embedded as `none`. -/
def Value.unwrap {Tag : Type} {interp : Tag → Type} [DecidableEq Tag]
    (v : Value Tag interp) (t : Tag) : Option (interp t) :=
  v.get t

/-- `Value::unwrap_mut::<T>()`: `get_mut::<T>().unwrap()`; panic embedded as `none`. -/
def Value.unwrap_mut {Tag : Type} {interp : Tag → Type} [DecidableEq Tag]
    (v : Value Tag interp) (t : Tag) : Option (interp t) :=
  v.get_mut t

/-- `Value::consume::<T>()` from src/value.rs lines 84-89:
`into_cloned::<T>().unwrap()`; panic embedded as `none`. -/
def Value.consume {Tag : Type} {interp : Tag → Type} [DecidableEq Tag]
    (v : Value Tag interp) (t : Tag) : Option (interp t) :=
  v.into_cloned t

theorem Value.get_new_self {Tag : Type} {interp : Tag → Type} [DecidableEq Tag]
    (t : Tag) (x : interp t) : (Value.new t x).get t = some x := by
  rw [Value.get]
  simp [Value.new]

theorem Value.get_new_other {Tag : Type} {interp : Tag → Type} [DecidableEq Tag]
    {t u : Tag} (x : interp t) (h : u ≠ t) : (Value.new t x).get u = none := by
  rw [Value.get]
  simp [Value.new]
  intro h2
  exact absurd h2.symm h

/-- All step queues of an execution, the queues of nested executions included,
are exhausted.  Written from the spec sentence that `can_resume` tests; the code
truth is settled against it below. -/
def Deferred.exhausted : Deferred S → Bool
  | .mk ps (.State _) => ps.isEmpty
  | .mk ps (.Deferred d) => ps.isEmpty && d.exhausted

theorem Deferred.can_resume_false_iff_exhausted (d : Deferred S) :
    d.can_resume = false ↔ d.exhausted = true := by
  induction d using Deferred.rank_induction with
  | ih d IH =>
    obtain ⟨ps, c⟩ := d
    cases c with
    | State s =>
      rw [Deferred.can_resume, Deferred.exhausted]
      simp
    | Deferred d2 =>
      have h2 := IH d2 (Deferred.rank_nested_lt ps d2)
      rw [Deferred.can_resume, Deferred.exhausted]
      simp only [Bool.or_eq_false_iff, Bool.not_eq_false', Bool.and_eq_true, h2]
      exact and_comm

/-- An execution that cannot resume reports no progress: `resume` returns `none`
(and, the model being pure, applies no step and mutates nothing). -/
theorem Deferred.resume_none_of_not_can_resume {d : Deferred S} (h : d.can_resume = false) :
    d.resume = none := by
  obtain ⟨ps, c⟩ := d
  cases c with
  | State s =>
    cases ps with
    | nil => exact Deferred.resume_nil_state s
    | cons p ps2 => simp [Parts.isEmpty] at h
  | Deferred d2 =>
    rw [Deferred.can_resume_mk_deferred] at h
    obtain ⟨h1, h2⟩ := Bool.or_eq_false_iff.mp h
    cases ps with
    | cons p ps2 => simp [Parts.isEmpty] at h2
    | nil =>
      rw [Deferred.resume_deferred, if_neg (by simp [h1])]
      exact Deferred.resume_nil_state _

/-- C2: For every initial state s0 and every step list [f1..fn] in which every step
maps a Ready(state) context to a Ready context (no step produces a nested
execution), running the execution built from (s0, [f1..fn]) to completion returns
the sequential composition fn(...f2(f1(s0))...), the steps applied strictly in the
supplied FIFO order. -/
theorem C2_consume_is_sequential_composition (S : Type) (s0 : S) (fs : List (S → S)) :
    (Deferred.new s0 (fs.map (fun f s => Context.State (f s)))).consume
      = some (fs.foldl (fun s f => f s) s0) := by
  induction fs generalizing s0 with
  | nil => simp [Deferred.new, Parts.ofList]
  | cons f fs2 ih =>
    rw [List.map_cons, Deferred.new, Parts.ofList,
      @Deferred.consume_cons_state S (fun s => Context.State (f s)) s0 (f s0)
        (Parts.ofList (fs2.map (fun f s => Context.State (f s)))) rfl,
      List.foldl_cons]
    exact ih (f s0)

/-- C3 (amended): `can_resume` returns false exactly when the step queue and the
queues of all nested executions are exhausted — whether the current context is the
Ready arm, or a Pending arm whose nested execution is itself exhausted; in every
other configuration it returns true. -/
theorem C3_can_resume_false_iff_exhausted (S : Type) (d : Deferred S) :
    d.can_resume = false ↔ d.exhausted = true :=
  Deferred.can_resume_false_iff_exhausted d

/-- C3 counterexample: an execution (reachable by resuming an outer chain whose
step invoked a one-step sub-chain) whose context is the Pending arm over an
exhausted sub-execution: `can_resume` is false although the current context is
not the Ready arm, refuting "false exactly when the current context is the Ready
arm ... and the queue is exhausted; in every other configuration true". -/
theorem C3_counterexample :
    (Deferred.mk .nil (.Deferred (Deferred.mk .nil (.State (0 : Nat))))).can_resume = false
      ∧ (Deferred.mk .nil
          (.Deferred (Deferred.mk .nil (.State (0 : Nat))))).context.is_state = false := by
  constructor
  · simp [Parts.isEmpty]
  · rfl

/-- C7 (amended): advancing an already-terminal execution is a no-op that reports
no progress: whenever `can_resume` is false, `resume` returns `none`, and no step
function is applied.  The converse direction of the original claim fails (see the
counterexample): when a queued step returns an already-exhausted nested execution
and the queue is then empty, `resume` applies that step yet still returns `none`. -/
theorem C7_resume_none_of_terminal (S : Type) (d : Deferred S)
    (h : d.can_resume = false) : d.resume = none :=
  Deferred.resume_none_of_not_can_resume h

/-- C7 witness: the empty execution cannot resume and `resume` reports nothing to do. -/
theorem C7_witness :
    (Deferred.new (0 : Nat) []).can_resume = false
      ∧ (Deferred.new (0 : Nat) []).resume = none :=
  ⟨by simp [Deferred.new, Parts.ofList],
    C7_resume_none_of_terminal Nat _ (by simp [Deferred.new, Parts.ofList])⟩

/-- C7 counterexample: an execution with `can_resume` true whose `resume`
nevertheless returns `none` — the single queued step returns an exhausted nested
execution, the collapse leaves an empty queue, and the call reports no progress
although a step was applied (its result is discarded).  This refutes "resume(d)
returns None if and only if can_resume(d) is false". -/
theorem C7_counterexample :
    (Deferred.mk (.cons (fun s => Context.Deferred (Deferred.mk .nil (.State (s + 1)))) .nil)
        (.State (0 : Nat))).can_resume = true
      ∧ (Deferred.mk (.cons (fun s => Context.Deferred (Deferred.mk .nil (.State (s + 1)))) .nil)
          (.State (0 : Nat))).resume = none := by
  constructor
  · simp [Parts.isEmpty]
  · simp [Deferred.resume_cons_state, Deferred.resume_deferred, Parts.isEmpty]

/-- C8: consuming the state out of a context holding a Pending (nested) execution
forces that execution to run all remaining steps to completion and returns the
final value: `Context::state` on the `Deferred` arm equals `Deferred::consume`,
which advances while `can_resume` holds (each successful `resume` preserves the
final value) and then reads off the grounded state; on the `State` arm it simply
returns the held state. -/
theorem C8_context_state_forces_completion :
    (∀ (S : Type) (d : Deferred S), Context.state (.Deferred d) = d.consume)
    ∧ (∀ (S : Type) (s : S), Context.state (.State s) = some s)
    ∧ (∀ (S : Type) (d d2 : Deferred S), d.resume = some d2 → d.consume = d2.consume)
    ∧ (∀ (S : Type) (d : Deferred S), d.can_resume = false → d.consume = some d.ground) := by
  refine ⟨fun S d => by rw [Context.state], fun S s => rfl, fun S d d2 h => ?_,
    fun S d h => Deferred.consume_of_not_can_resume h⟩
  by_cases hcr : d.can_resume
  · exact Deferred.consume_of_resume_some hcr h
  · rw [Deferred.resume_none_of_not_can_resume (eq_false_of_ne_true hcr)] at h
    cases h

/-- C8 witness: one resume step of a concrete chain preserves the final value,
and a terminal execution consumes to its grounded state. -/
theorem C8_witness :
    (Deferred.new (1 : Nat) [fun s => Context.State (s + 1)]).consume
        = (Deferred.mk .nil (.State 2)).consume
      ∧ (Deferred.new (5 : Nat) []).consume = some (Deferred.new (5 : Nat) []).ground :=
  ⟨C8_context_state_forces_completion.2.2.1 Nat _ _
      (by simp [Deferred.new, Parts.ofList, Deferred.resume_cons_state]),
    C8_context_state_forces_completion.2.2.2 Nat _
      (by simp [Deferred.new, Parts.ofList])⟩

/-- C9: contract violations fail fatally and are never silently coerced.
Requesting the nested-execution view (`Context::deferred`) of a context holding a
plain state panics (embedded as `none`), while on a Pending context it returns the
nested execution.  For a `Value` built from a payload of type `t`, the unchecked
accessors (`unwrap`, `unwrap_mut`, `consume`) panic (none) for every tag `u ≠ t`,
and the checked accessors (`get`, `get_mut`, `into_cloned`) return absence for
`u ≠ t` and the payload for `t` itself. -/
theorem C9_contract_violations_fatal :
    (∀ (S : Type) (s : S), Context.deferred (Context.State s) = none)
    ∧ (∀ (S : Type) (d : Deferred S), Context.deferred (Context.Deferred d) = some d)
    ∧ (∀ (Tag : Type) (interp : Tag → Type) [DecidableEq Tag] (t u : Tag)
        (x : interp t), u ≠ t →
          (Value.new t x).unwrap u = none
          ∧ (Value.new t x).unwrap_mut u = none
          ∧ (Value.new t x).consume u = none
          ∧ (Value.new t x).get u = none
          ∧ (Value.new t x).get_mut u = none
          ∧ (Value.new t x).into_cloned u = none)
    ∧ (∀ (Tag : Type) (interp : Tag → Type) [DecidableEq Tag] (t : Tag)
        (x : interp t),
          (Value.new t x).get t = some x
          ∧ (Value.new t x).get_mut t = some x
          ∧ (Value.new t x).into_cloned t = some x
          ∧ (Value.new t x).unwrap t = some x
          ∧ (Value.new t x).is t = true) := by
  refine ⟨fun S s => rfl, fun S d => rfl, ?_, ?_⟩
  · intro Tag interp inst t u x h
    have hg := Value.get_new_other x h
    exact ⟨hg, hg, hg, hg, hg, hg⟩
  · intro Tag interp inst t x
    have hg := Value.get_new_self t x
    refine ⟨hg, hg, hg, hg, ?_⟩
    rw [Value.is]
    simp [Value.new]

/-- C9 witness: a concrete two-tag universe; the wrong tag panics on the unchecked
accessor and is absent on the checked one, the right tag yields the payload. -/
theorem C9_witness :
    (@Value.new Bool (fun _ => Nat) true 7).unwrap false = none
      ∧ (@Value.new Bool (fun _ => Nat) true 7).get false = none
      ∧ (@Value.new Bool (fun _ => Nat) true 7).get true = some 7 :=
  ⟨(C9_contract_violations_fatal.2.2.1 Bool (fun _ => Nat) true false 7
      (by decide)).1,
    (C9_contract_violations_fatal.2.2.1 Bool (fun _ => Nat) true false 7
      (by decide)).2.2.2.1,
    (C9_contract_violations_fatal.2.2.2 Bool (fun _ => Nat) true 7).1⟩

/-- C10: an execution built with an empty step list is already terminal at
construction: `can_resume` is false, `state` returns the initial state, `resume`
reports nothing to do, `consume` returns the state unchanged — and it can still
be registered with a well-formed manager, counting toward `count` and answering
`has` until touched: the first `resume(id)` reports no progress and drops it. -/
theorem C10_empty_execution_terminal (S : Type) (s : S)
    (m : DeferredManager S) (hwf : m.Wf) :
    (Deferred.new s []).can_resume = false
    ∧ (Deferred.new s []).state = some s
    ∧ (Deferred.new s []).resume = none
    ∧ (Deferred.new s []).consume = some s
    ∧ (m.run (Deferred.new s [])).2.has (m.run (Deferred.new s [])).1 = true
    ∧ (m.run (Deferred.new s [])).2.count = m.count + 1
    ∧ ((m.run (Deferred.new s [])).2.resume (m.run (Deferred.new s [])).1).1 = false
    ∧ ((m.run (Deferred.new s [])).2.resume (m.run (Deferred.new s [])).1).2.has
        (m.run (Deferred.new s [])).1 = false := by
  have hterm : (Deferred.new s []).can_resume = false := by simp [Deferred.new, Parts.ofList]
  have hres : (Deferred.new s []).resume = none :=
    Deferred.resume_none_of_not_can_resume hterm
  have hlook : (m.run (Deferred.new s [])).2.lookup (m.run (Deferred.new s [])).1
      = some (Deferred.new s []) := by
    simp [DeferredManager.run, DeferredManager.lookup, List.find?]
  have hfresh : ∀ e ∈ m.registry, (e.1 == m.id_generator) = false := by
    intro e he
    have hlt := hwf.1 e he
    simp [Nat.ne_of_lt hlt]
  have herase : ((m.run (Deferred.new s [])).2.erase (m.run (Deferred.new s [])).1).registry
      = m.registry := by
    simp [DeferredManager.run, DeferredManager.erase, List.eraseP_cons]
  have hfind : m.registry.find? (fun e => e.1 == m.id_generator) = none :=
    List.find?_eq_none.mpr (fun e he => by simp [hfresh e he])
  refine ⟨hterm, by simp [Deferred.new, Parts.ofList], hres,
    by rw [Deferred.consume_of_not_can_resume hterm]; simp [Deferred.new, Parts.ofList],
    by rw [DeferredManager.has, hlook]; rfl,
    by simp [DeferredManager.run, DeferredManager.count],
    ?_, ?_⟩
  · simp only [DeferredManager.resume, hlook, hres]
  · simp only [DeferredManager.resume, hlook, hres]
    rw [DeferredManager.has, DeferredManager.lookup, herase]
    simp only [DeferredManager.run]
    rw [hfind]
    rfl

/-- C10 witness: the empty manager is well-formed and registering an empty
execution makes `has` answer true. -/
theorem C10_witness :
    DeferredManager.Wf (DeferredManager.new Nat)
      ∧ (Deferred.new (0 : Nat) []).can_resume = false
      ∧ ((DeferredManager.new Nat).run (Deferred.new (0 : Nat) [])).2.has
          ((DeferredManager.new Nat).run (Deferred.new (0 : Nat) [])).1 = true :=
  have hwf : DeferredManager.Wf (DeferredManager.new Nat) :=
    ⟨by simp [DeferredManager.new], by simp [DeferredManager.new]⟩
  ⟨hwf, (C10_empty_execution_terminal Nat 0 (DeferredManager.new Nat) hwf).1,
    (C10_empty_execution_terminal Nat 0 (DeferredManager.new Nat) hwf).2.2.2.2.1⟩

/-- C4 (amended): the manager's per-identifier advance returns true iff an entry
was found under the identifier AND its advance reported progress.  When the entry
exists: it is removed; if its tick succeeds and it can still resume it is
reinserted under the same identifier; if the tick succeeds but leaves it terminal
it is dropped with its final value discarded; if the tick reports no progress
(an already-terminal entry) it is dropped and the call returns false — this last
case refutes the original "true iff an execution was registered".  When no entry
exists the call reports not found and changes nothing. -/
theorem C4_manager_resume_reports_progress (S : Type) (m : DeferredManager S)
    (id : ManagerId) :
    (m.lookup id = none → m.resume id = (false, m))
    ∧ (∀ d, m.lookup id = some d → d.resume = none →
        m.resume id = (false, m.erase id))
    ∧ (∀ d d2, m.lookup id = some d → d.resume = some d2 → d2.can_resume = true →
        m.resume id = (true, ⟨(id, d2) :: (m.erase id).registry, m.id_generator⟩))
    ∧ (∀ d d2, m.lookup id = some d → d.resume = some d2 → d2.can_resume = false →
        m.resume id = (true, m.erase id))
    ∧ ((m.resume id).1 = true ↔ ∃ d d2, m.lookup id = some d ∧ d.resume = some d2) := by
  refine ⟨fun h => by simp only [DeferredManager.resume, h],
    fun d hd hr => by simp only [DeferredManager.resume, hd, hr],
    fun d d2 hd hr hcr => by simp only [DeferredManager.resume, hd, hr, hcr, if_true],
    fun d d2 hd hr hcr => by simp only [DeferredManager.resume, hd, hr, hcr]; simp,
    ?_, ?_⟩
  · intro h
    cases hd : m.lookup id with
    | none =>
      have he : m.resume id = (false, m) := by simp only [DeferredManager.resume, hd]
      rw [he] at h
      simp at h
    | some d =>
      cases hr : d.resume with
      | none =>
        have he : m.resume id = (false, m.erase id) := by
          simp only [DeferredManager.resume, hd, hr]
        rw [he] at h
        simp at h
      | some d2 => exact ⟨d, d2, rfl, hr⟩
  · rintro ⟨d, d2, hd, hr⟩
    by_cases hcr : d2.can_resume
    · simp only [DeferredManager.resume, hd, hr, hcr, if_true]
    · simp only [DeferredManager.resume, hd, hr]
      simp [hcr]

/-- C4 counterexample: a registry holding an already-terminal execution under
identifier 0: the entry exists (`has` is true) yet `resume(0)` returns false,
refuting "returns true if and only if an execution was registered under id". -/
theorem C4_counterexample :
    (⟨[(0, Deferred.new (0 : Nat) [])], 1⟩ : DeferredManager Nat).has 0 = true
      ∧ ((⟨[(0, Deferred.new (0 : Nat) [])], 1⟩ : DeferredManager Nat).resume 0).1 = false := by
  have hres : (Deferred.new (0 : Nat) []).resume = none :=
    Deferred.resume_none_of_not_can_resume (by simp [Deferred.new, Parts.ofList])
  refine ⟨rfl, ?_⟩
  have hlook : (⟨[(0, Deferred.new (0 : Nat) [])], 1⟩ : DeferredManager Nat).lookup 0
      = some (Deferred.new (0 : Nat) []) := rfl
  simp only [DeferredManager.resume, hlook, hres]

/-- C4 witness: an identifier that was never registered reports not found. -/
theorem C4_witness :
    (DeferredManager.new Nat).lookup 0 = none
      ∧ (DeferredManager.new Nat).resume 0 = (false, DeferredManager.new Nat) :=
  ⟨rfl, (C4_manager_resume_reports_progress Nat (DeferredManager.new Nat) 0).1 rfl⟩

theorem DeferredManager.consumeEntries_mem {l : List (ManagerId × Deferred S)}
    {pairs : List (ManagerId × S)} (h : DeferredManager.consumeEntries l = some pairs)
    (i : ManagerId) (v : S) :
    (i, v) ∈ pairs ↔ ∃ d, (i, d) ∈ l ∧ d.can_resume = true ∧ d.consume = some v := by
  induction l generalizing pairs with
  | nil =>
    rw [DeferredManager.consumeEntries] at h
    cases h
    simp
  | cons e rest ih =>
    rw [DeferredManager.consumeEntries] at h
    by_cases hcr : e.2.can_resume
    · rw [if_pos hcr] at h
      cases hc : e.2.consume with
      | none => rw [hc] at h; cases h
      | some w =>
        rw [hc] at h
        cases hrest : DeferredManager.consumeEntries rest with
        | none => rw [hrest] at h; cases h
        | some ps2 =>
          rw [hrest] at h
          simp only [Option.map_some'] at h
          cases h
          rw [List.mem_cons]
          constructor
          · rintro (heq | hmem)
            · obtain ⟨h1, h2⟩ := Prod.mk.injEq .. ▸ heq
              exact ⟨e.2, by rw [h1]; exact List.mem_cons_self e rest, hcr, by rw [h2]; exact hc⟩
            · obtain ⟨d, hd, hdcr, hdc⟩ := (ih hrest).mp hmem
              exact ⟨d, List.mem_cons_of_mem e hd, hdcr, hdc⟩
          · rintro ⟨d, hd, hdcr, hdc⟩
            rcases List.mem_cons.mp hd with heq | hmem
            · left
              have h1 : i = e.1 := congrArg Prod.fst heq
              have h2 : d = e.2 := congrArg Prod.snd heq
              rw [h2, hc] at hdc
              cases hdc
              rw [h1]
            · right
              exact (ih hrest).mpr ⟨d, hmem, hdcr, hdc⟩
    · rw [if_neg hcr] at h
      rw [ih h]
      constructor
      · rintro ⟨d, hd, hdcr, hdc⟩
        exact ⟨d, List.mem_cons_of_mem e hd, hdcr, hdc⟩
      · rintro ⟨d, hd, hdcr, hdc⟩
        rcases List.mem_cons.mp hd with heq | hmem
        · have h2 : d = e.2 := congrArg Prod.snd heq
          rw [h2] at hdcr
          exact absurd hdcr hcr
        · exact ⟨d, hmem, hdcr, hdc⟩

/-- C5 (amended): `consume_all` drains the entire registry (it is empty
afterwards) and, when no entry panics, returns exactly one (identifier, final
value) pair for every registered execution that could still resume, each run
fully to completion; entries that were already terminal at the time of the call
are dropped without returning a pair (refuting "a pair for every execution that
was registered"); the order of the returned pairs is unspecified. -/
theorem C5_consume_all_drains_registry (S : Type) (m : DeferredManager S) :
    (m.consume_all).2.registry = []
    ∧ (∀ pairs, (m.consume_all).1 = some pairs →
        ∀ i v, ((i, v) ∈ pairs
          ↔ ∃ d, (i, d) ∈ m.registry ∧ d.can_resume = true ∧ d.consume = some v)) :=
  ⟨rfl, fun pairs h i v => DeferredManager.consumeEntries_mem h i v⟩

/-- C5 counterexample: a registry holding one already-terminal execution under
identifier 0: `consume_all` returns no pair at all although an execution was
registered, refuting "one pair for every execution registered at the time of the
call". -/
theorem C5_counterexample :
    ((⟨[(0, Deferred.new (0 : Nat) [])], 1⟩ : DeferredManager Nat).consume_all).1 = some []
      ∧ (⟨[(0, Deferred.new (0 : Nat) [])], 1⟩ : DeferredManager Nat).has 0 = true := by
  refine ⟨?_, rfl⟩
  show DeferredManager.consumeEntries _ = some []
  rw [DeferredManager.consumeEntries, if_neg (by simp [Deferred.new, Parts.ofList]),
    DeferredManager.consumeEntries]

/-- C5 witness: a one-entry registry whose execution takes one step from 1 to 2;
`consume_all` returns exactly the pair (0, 2). -/
theorem C5_witness :
    ((⟨[(0, Deferred.new (1 : Nat) [fun s => Context.State (s + 1)])], 1⟩ :
        DeferredManager Nat).consume_all).1 = some [(0, 2)]
      ∧ ((0, 2) ∈ [((0 : ManagerId), (2 : Nat))]
          ↔ ∃ d, (0, d) ∈ (⟨[(0, Deferred.new (1 : Nat) [fun s => Context.State (s + 1)])], 1⟩ :
              DeferredManager Nat).registry ∧ d.can_resume = true ∧ d.consume = some 2) := by
  have hcons : (Deferred.new (1 : Nat) [fun s => Context.State (s + 1)]).consume = some 2 := by
    rw [Deferred.new, Parts.ofList, Parts.ofList,
      @Deferred.consume_cons_state Nat (fun s => Context.State (s + 1)) 1 2 Parts.nil rfl,
      Deferred.consume_nil_state]
  have heval : ((⟨[(0, Deferred.new (1 : Nat) [fun s => Context.State (s + 1)])], 1⟩ :
      DeferredManager Nat).consume_all).1 = some [(0, 2)] := by
    show DeferredManager.consumeEntries _ = _
    rw [DeferredManager.consumeEntries, if_pos (by simp [Deferred.new, Parts.ofList])]
    simp only [hcons]
    rw [DeferredManager.consumeEntries]
    rfl
  exact ⟨heval,
    (C5_consume_all_drains_registry Nat _).2 [(0, 2)] heval 0 2⟩

/-- C6 (amended): `resume_all` advances every registered execution by one tick and
keeps exactly the entries whose tick reported progress and which can still resume
afterwards, under their unchanged identifiers; entries that were already terminal
(tick reports no progress), or whose tick left them terminal, are removed — so
removal is not limited to entries that "become terminal as a result of that tick"
(see the counterexample: an already-terminal entry is removed without any tick).
The identifier counter is unchanged. -/
theorem C6_resume_all_keeps_pending (S : Type) (m : DeferredManager S) :
    (∀ i d2, ((i, d2) ∈ (m.resume_all).registry
        ↔ ∃ d, (i, d) ∈ m.registry ∧ d.resume = some d2 ∧ d2.can_resume = true))
    ∧ (m.resume_all).id_generator = m.id_generator := by
  refine ⟨fun i d2 => ?_, rfl⟩
  show (i, d2) ∈ m.registry.filterMap _ ↔ _
  rw [List.mem_filterMap]
  constructor
  · rintro ⟨e, he, hf⟩
    cases hr : e.2.resume with
    | none => rw [hr] at hf; cases hf
    | some dd =>
      rw [hr] at hf
      simp only [Option.some_bind] at hf
      by_cases hcr : dd.can_resume
      · rw [if_pos hcr] at hf
        obtain ⟨h1, h2⟩ := Prod.mk.injEq .. ▸ Option.some_injective _ hf
        refine ⟨e.2, ?_, ?_, ?_⟩
        · rw [← h1]; exact he
        · rw [← h2]; exact hr
        · rw [← h2]; exact hcr
      · rw [if_neg hcr] at hf
        cases hf
  · rintro ⟨d, hd, hr, hcr⟩
    refine ⟨(i, d), hd, ?_⟩
    rw [hr]
    simp only [Option.some_bind]
    rw [if_pos hcr]

/-- C6 counterexample: a registry holding an already-terminal execution under
identifier 0: it is still pending in no sense (`can_resume` is false, no tick can
advance it), yet `resume_all` removes it, refuting "removes from the registry only
those entries that become terminal as a result of that tick; every entry that does
not become terminal stays registered". -/
theorem C6_counterexample :
    (⟨[(0, Deferred.new (0 : Nat) [])], 1⟩ : DeferredManager Nat).has 0 = true
      ∧ (Deferred.new (0 : Nat) []).can_resume = false
      ∧ ((⟨[(0, Deferred.new (0 : Nat) [])], 1⟩ : DeferredManager Nat).resume_all).has 0
          = false := by
  have hres : (Deferred.new (0 : Nat) []).resume = none :=
    Deferred.resume_none_of_not_can_resume (by simp [Deferred.new, Parts.ofList])
  refine ⟨rfl, by simp [Deferred.new, Parts.ofList], ?_⟩
  rw [DeferredManager.has, DeferredManager.lookup, DeferredManager.resume_all]
  simp [hres]

/-- The spec's nesting example: outer steps [+1, invoke sub-chain(state×2, then ×3), +2]
starting from state 1. -/
def nestingExample : Deferred Nat :=
  Deferred.new 1
    [fun s => Context.State (s + 1),
     fun s => Context.Deferred
        (Deferred.new s [fun t => Context.State (t * 2), fun t => Context.State (t * 3)]),
     fun s => Context.State (s + 2)]

/-- C1 (amended): the flattening law — an outer step returning a nested execution
built from the incoming state and sub-steps [g1..gm] is observationally equivalent,
w.r.t. the final value of a full run, to inlining g1..gm in place of that step —
holds provided the sub-chain is nonempty (m ≥ 1) and each of its steps is tame
(returns a ready state or a still-resumable nested execution); without that proviso
the outer run can panic on its final unwrap where the inlined run completes (see
the counterexample).  In the spec's concrete instance (outer [+1, invoke
sub-chain(×2, then ×3), +2] from 1) the five observed states are 1, 2, 4, 12, 14;
the fourth tick yields a terminal execution (no tick is lost to the collapse of
the finished sub-chain), a fifth tick reports nothing to do, and completion
yields 14. -/
theorem C1_flattening_preserves_final_value :
    (∀ (T : Type) (xs ys gs : List (T → Context T)) (s0 : T),
        gs ≠ [] → (∀ g ∈ gs, StepTame g) →
        (Deferred.new s0
            (xs ++ (fun t => Context.Deferred (Deferred.new t gs)) :: ys)).consume
          = (Deferred.new s0 (xs ++ (gs ++ ys))).consume)
    ∧ nestingExample.state = some 1
    ∧ nestingExample.resume.bind Deferred.state = some 2
    ∧ (nestingExample.resume.bind Deferred.resume).bind Deferred.state = some 4
    ∧ ((nestingExample.resume.bind Deferred.resume).bind Deferred.resume).bind
        Deferred.state = some 12
    ∧ (((nestingExample.resume.bind Deferred.resume).bind Deferred.resume).bind
        Deferred.resume).bind Deferred.state = some 14
    ∧ (((nestingExample.resume.bind Deferred.resume).bind Deferred.resume).bind
        Deferred.resume).map Deferred.can_resume = some false
    ∧ ((((nestingExample.resume.bind Deferred.resume).bind Deferred.resume).bind
        Deferred.resume).bind Deferred.resume) = none
    ∧ nestingExample.consume = some 14 := by
  refine ⟨fun T xs ys gs s0 hne hg => Deferred.flattening xs ys gs s0 hne hg,
    ?_, ?_, ?_, ?_, ?_, ?_, ?_, ?_⟩ <;>
  simp [nestingExample, Deferred.new, Parts.ofList, Deferred.resume_cons_state,
    Deferred.resume_deferred, Deferred.consume_unfold]

/-- C1 witness: the flattening law applied to the concrete sub-chain [+1] invoked
from state 0 with empty surrounding chains. -/
theorem C1_flattening_witness :
    (Deferred.new (0 : Nat)
        ([] ++ (fun t => Context.Deferred (Deferred.new t [fun s => Context.State (s + 1)]))
          :: [])).consume
      = (Deferred.new (0 : Nat) ([] ++ ([fun s => Context.State (s + 1)] ++ []))).consume :=
  C1_flattening_preserves_final_value.1 Nat [] [] [fun s => Context.State (s + 1)] 0
    (by simp)
    (fun g hg => by
      rw [List.mem_singleton] at hg
      subst hg
      intro s d hsd
      cases hsd)

/-- C1 counterexample: with an empty sub-chain (m = 0) the law fails: the outer
run [invoke sub-chain()] from 0 panics on the final unwrap (`consume` is `none` —
the step's result is produced but the call reports no progress), while the
inlined run is the empty chain and completes with 0. -/
theorem C1_counterexample :
    (Deferred.new (0 : Nat)
        [fun t => Context.Deferred (Deferred.new t ([] : List (Nat → Context Nat)))]).consume
        = none
      ∧ (Deferred.new (0 : Nat) ([] : List (Nat → Context Nat))).consume = some 0 := by
  constructor
  · simp [Deferred.new, Parts.ofList, Deferred.consume_unfold, Deferred.resume_cons_state,
      Deferred.resume_deferred]
  · simp [Deferred.new, Parts.ofList]
